import Mathlib

/-!
Shallow embedding of `travel_ura` (src/main.rs): the feed parser, the
`Request::send` status handling, `datetime_from_millis`, and the
`PredictionsCombinator::intersect` order-aware intersection.

Conventions of the embedding:
* `DateTime<Local>` instants are modelled as `Int` nanoseconds since the Unix
  epoch (chrono's `from_utc_datetime` is a bijective re-labelling of the
  instant, so ordering and equality of instants are preserved).
* `HashMap<TripId, Prediction>` is modelled as an association list with unique
  keys; `insert`, `remove` and `drain` are modelled by `mapInsert`,
  `mapRemove` and `List.map Prod.snd`.  The drain order of a Rust `HashMap`
  is unspecified; the list model is one deterministic refinement of it, and
  every theorem below about the drained contents is stated up to content
  (membership / permutation / sortedness), never about a tie-break order.
* A Rust panic (an `unwrap` on a `None`/`Err`, an out-of-bounds index, or
  chrono's `from_timestamp` rejecting an invalid nanosecond count) is
  modelled as `none` in an `Option`-valued function.
-/

namespace TravelUra

/-- `type TripId = u64;` (claims only involve values far below `2^64`,
parsing checks the `u64` range). -/
abbrev TripId := Nat

/-- `struct Prediction` from src/main.rs. -/
structure Prediction where
  stop_point_name : String
  line_name : String
  destination_text : String
  trip_id : TripId
  estimated_time : Int
deriving DecidableEq, Repr

/-- `struct Predictions` from src/main.rs (the spec calls it `PredictionSet`). -/
structure Predictions where
  time : Int
  predictions : List Prediction
deriving DecidableEq, Repr

/-! ### `datetime_from_millis`

Rust source:
```
let secs: i64 = timestamp / 1000;
let nsecs: u32 = (timestamp % 1000 * 1000_000) as u32;
Local.from_utc_datetime(&NaiveDateTime::from_timestamp(secs, nsecs))
```
Rust `/` and `%` on `i64` truncate toward zero (`Int.tdiv` / `Int.tmod`);
`as u32` keeps the low 32 bits (`Int.emod _ (2^32)`); chrono's
`NaiveDateTime::from_timestamp` panics when the nanosecond argument is
`>= 2_000_000_000` (modelled as `none`).  The (astronomically far) seconds
range limit of `NaiveDateTime` is not modelled; it is unreachable for the
inputs considered here. -/
def datetime_from_millis (timestamp : Int) : Option Int :=
  let secs : Int := Int.tdiv timestamp 1000
  let nsecs : Int := Int.emod (Int.tmod timestamp 1000 * 1000000) 4294967296
  if nsecs < 2000000000 then some (secs * 1000000000 + nsecs) else none

/-! ### JSON values and the feed parser

The relevant fragment of `serde_json::Value`: integers, strings, arrays and
an `other` bucket (null/bool/float/object) on which the typed accessors fail.
A line of the response body is an `Option Json`: `none` models a line whose
`serde_json::from_str` fails (or whose read from the stream fails); the code
`unwrap`s that result, so `none` propagates as a panic. -/
inductive Json where
  | num (n : Int)
  | str (s : String)
  | arr (elems : List Json)
  | other

/-- `Value::as_array` : `some` exactly on arrays. -/
def Json.as_array : Json → Option (List Json)
  | .arr elems => some elems
  | _ => none

/-- `Value::as_string` : `some` exactly on strings. -/
def Json.as_string : Json → Option String
  | .str s => some s
  | _ => none

/-- `Value::as_i64` : integer values representable as `i64`. -/
def Json.as_i64 : Json → Option Int
  | .num n => if -9223372036854775808 ≤ n ∧ n < 9223372036854775808 then some n else none
  | _ => none

/-- `Value::as_u64` : integer values representable as `u64`. -/
def Json.as_u64 : Json → Option Nat
  | .num n => if 0 ≤ n ∧ n < 18446744073709551616 then some n.toNat else none
  | _ => none

/-- The metadata (first) line of the body, src/main.rs lines 41-45: parse as
JSON (`unwrap`), `as_array().unwrap()`, index `[2]` (panics when the array is
shorter), `as_i64().unwrap()`, then `datetime_from_millis`. -/
def parse_meta (line : Option Json) : Option Int := do
  let j ← line
  let a ← j.as_array
  let tsJson ← a.get? 2
  let ts ← tsJson.as_i64
  datetime_from_millis ts

/-- One prediction line of the body, src/main.rs lines 46-63: indices 1-5 of
the array map to the fields; every access `unwrap`s. -/
def parse_line (line : Option Json) : Option Prediction := do
  let j ← line
  let a ← j.as_array
  let spnJson ← a.get? 1
  let spn ← spnJson.as_string
  let lnJson ← a.get? 2
  let ln ← lnJson.as_string
  let dtJson ← a.get? 3
  let dt ← dtJson.as_string
  let tidJson ← a.get? 4
  let tid ← tidJson.as_u64
  let etJson ← a.get? 5
  let etMillis ← etJson.as_i64
  let et ← datetime_from_millis etMillis
  some { stop_point_name := spn, line_name := ln, destination_text := dt,
         trip_id := tid, estimated_time := et }

/-- The `for line in lines` loop (src/main.rs lines 46-63): predictions are
parsed and pushed in stream order; a panic on any line aborts the loop. -/
def parse_lines : List (Option Json) → Option (List Prediction)
  | [] => some []
  | l :: rest => do
    let p ← parse_line l
    let ps ← parse_lines rest
    some (p :: ps)

/-- The whole body-parsing step inside the `StatusCode::Ok` arm of
`Request::send` (src/main.rs lines 39-67).  `lines.next().unwrap()` on an
empty stream is a panic (`none`); any panicking line aborts the whole parse
with no partial `Predictions` value. -/
def parse_body (lines : List (Option Json)) : Option Predictions :=
  match lines with
  | [] => none
  | metaLine :: rest => do
    let time ← parse_meta metaLine
    let preds ← parse_lines rest
    some { time := time, predictions := preds }

/-! ### `Request::send` status handling -/

/-- `struct Request` from src/main.rs. -/
structure Request where
  stop_point_name : Option String

/-- The status codes the code distinguishes: `StatusCode::Ok`,
`StatusCode::RangeNotSatisfiable`, and everything else. -/
inductive StatusCode where
  | ok
  | rangeNotSatisfiable
  | otherStatus (code : Nat)
deriving DecidableEq, Repr

/-- An opaque `hyper::error::Error` (only carried, never inspected). -/
structure HyperError where
  message : String
deriving DecidableEq, Repr

/-- `enum Error` from src/main.rs (note: it has exactly these three
variants; there is no parse-error variant). -/
inductive Error where
  | HyperError (e : HyperError)
  | BadStopPointName (name : String)
  | UnknownStatus (status : StatusCode)
deriving DecidableEq, Repr

/-- The outcome of `client.get(&url).send()`: either a response with a status
and a body stream, or a transport-level failure. -/
inductive TransportOutcome where
  | success (status : StatusCode) (body : List (Option Json))
  | failure (e : HyperError)

/-- `Request::send` after the transport call (src/main.rs lines 35-87):
matches the transport outcome and the status code.  The outer `Option`
models panics of the body parsing (`none` = the thread panics and no
`Result` value is produced at all). -/
def Request.send (req : Request) (outcome : TransportOutcome) :
    Option (Except Error Predictions) :=
  match outcome with
  | .failure e => some (.error (.HyperError e))
  | .success status body =>
    match status with
    | .ok =>
      match parse_body body with
      | some preds => some (.ok preds)
      | none => none
    | .rangeNotSatisfiable =>
      match req.stop_point_name with
      | some name => some (.error (.BadStopPointName name))
      | none => some (.error (.UnknownStatus .rangeNotSatisfiable))
    | .otherStatus c => some (.error (.UnknownStatus (.otherStatus c)))

/-! ### The association-list model of `HashMap<TripId, Prediction>` -/

abbrev PredMap := List (TripId × Prediction)

/-- `HashMap::insert`: replace the binding when the key is present, add it
otherwise. -/
def mapInsert (m : PredMap) (k : TripId) (v : Prediction) : PredMap :=
  match m with
  | [] => [(k, v)]
  | (k', v') :: rest =>
    if k' = k then (k, v) :: rest else (k', v') :: mapInsert rest k v

/-- `HashMap::get`-style lookup (first binding of the key). -/
def mapLookup (m : PredMap) (k : TripId) : Option Prediction :=
  match m with
  | [] => none
  | (k', v) :: rest => if k' = k then some v else mapLookup rest k

/-- `HashMap::remove`: the removed value (if any) together with the map
without that binding. -/
def mapRemove (m : PredMap) (k : TripId) : Option Prediction × PredMap :=
  match m with
  | [] => (none, [])
  | (k', v) :: rest =>
    if k' = k then (some v, rest)
    else
      let r := mapRemove rest k
      (r.1, (k', v) :: r.2)

/-! ### `PredictionsCombinator::intersect` -/

/-- The body of the inner `for p in predictions.predictions` loop
(src/main.rs lines 164-173), acting on the pair
(current working map being drained by `remove`, new map being built). -/
def stepFold (ordered : Bool) (acc : PredMap × PredMap) (p : Prediction) :
    PredMap × PredMap :=
  let rem := mapRemove acc.1 p.trip_id
  match rem.1 with
  | some pred =>
    if !ordered || (ordered && decide (pred.estimated_time ≤ p.estimated_time)) then
      (rem.2, mapInsert acc.2 p.trip_id pred)
    else
      (rem.2, acc.2)
  | none => (rem.2, acc.2)

/-- Processing one subsequent `Predictions` set against the working map
(src/main.rs lines 162-175): the new map after the inner loop. -/
def intersectStep (m : PredMap) (ordered : Bool) (ps : List Prediction) : PredMap :=
  (ps.foldl (stepFold ordered) (m, [])).2

/-- `HashMap::from_iter` over `(p.trip_id, p)` pairs (src/main.rs
lines 158-160): repeated insertion, so a later duplicate key wins. -/
def seedMap (ps : List Prediction) : PredMap :=
  ps.foldl (fun m p => mapInsert m p.trip_id p) []

/-- The sort relation of `predictions_vec.sort_by_key(|p| p.estimated_time)`. -/
def predLE (p q : Prediction) : Prop := p.estimated_time ≤ q.estimated_time

instance : DecidableRel predLE := fun p q =>
  inferInstanceAs (Decidable (p.estimated_time ≤ q.estimated_time))

instance : IsTotal Prediction predLE :=
  ⟨fun p q => Int.le_total p.estimated_time q.estimated_time⟩

instance : IsTrans Prediction predLE :=
  ⟨fun _ _ _ h1 h2 => le_trans h1 h2⟩

/-- `sort_by_key(|p| p.estimated_time)`: a stable sort by `estimated_time`. -/
def sortPreds (ps : List Prediction) : List Prediction :=
  ps.insertionSort predLE

/-- `PredictionsCombinator::intersect` (src/main.rs lines 147-187) on a list
of `Predictions`. -/
def intersect (sets : List Predictions) (ordered : Bool) : Option Predictions :=
  match sets with
  | [] => none
  | first :: rest =>
    let finalMap :=
      rest.foldl (fun m s => intersectStep m ordered s.predictions)
        (seedMap first.predictions)
    some { time := first.time,
           predictions := sortPreds (finalMap.map Prod.snd) }

/-! ### Concrete data used by the witness theorems

The end-to-end scenario of the spec: two stops, feed A has trips
{1 at t=10, 2 at t=20} captured at t0 = 100; feed B has trips
{1 at t=15, 3 at t=5} captured at 105. -/

def pA1 : Prediction :=
  { stop_point_name := "S1", line_name := "L1", destination_text := "D",
    trip_id := 1, estimated_time := 10 }

def pA2 : Prediction :=
  { stop_point_name := "S1", line_name := "L2", destination_text := "D",
    trip_id := 2, estimated_time := 20 }

def pB1 : Prediction :=
  { stop_point_name := "S2", line_name := "L1", destination_text := "D",
    trip_id := 1, estimated_time := 15 }

def pB3 : Prediction :=
  { stop_point_name := "S2", line_name := "L3", destination_text := "D",
    trip_id := 3, estimated_time := 5 }

def feedA : Predictions := { time := 100, predictions := [pA1, pA2] }

def feedB : Predictions := { time := 105, predictions := [pB1, pB3] }

/-! ### Lemmas about the association-list map operations -/

theorem mapRemove_fst (m : PredMap) (k : TripId) :
    (mapRemove m k).1 = mapLookup m k := by
  induction m with
  | nil => rfl
  | cons e rest ih =>
    obtain ⟨k', v⟩ := e
    by_cases h : k' = k <;> simp [mapRemove, mapLookup, h, ih]

theorem mem_mapRemove_snd {m : PredMap} {k : TripId} {e : TripId × Prediction}
    (he : e ∈ (mapRemove m k).2) : e ∈ m := by
  induction m with
  | nil => simp [mapRemove] at he
  | cons e' rest ih =>
    obtain ⟨k', v⟩ := e'
    by_cases h : k' = k
    · simp only [mapRemove, if_pos h] at he
      exact List.mem_cons_of_mem _ he
    · simp only [mapRemove, if_neg h, List.mem_cons] at he
      rcases he with he | he
      · exact he ▸ List.mem_cons_self _ _
      · exact List.mem_cons_of_mem _ (ih he)

theorem mapLookup_mapRemove_ne {m : PredMap} {k' k : TripId} (h : k' ≠ k) :
    mapLookup (mapRemove m k').2 k = mapLookup m k := by
  induction m with
  | nil => rfl
  | cons e rest ih =>
    obtain ⟨k'', v⟩ := e
    by_cases hk : k'' = k'
    · subst hk
      simp [mapRemove, mapLookup, h]
    · by_cases hk2 : k'' = k <;> simp [mapRemove, mapLookup, hk, hk2, Ne.symm h, ih]

theorem mapLookup_mapRemove_of_none {m : PredMap} {k : TripId}
    (h : mapLookup m k = none) (k' : TripId) :
    mapLookup (mapRemove m k').2 k = none := by
  induction m with
  | nil => rfl
  | cons e rest ih =>
    obtain ⟨k'', v⟩ := e
    by_cases hk : k'' = k
    · simp [mapLookup, hk] at h
    · simp only [mapLookup, if_neg hk] at h
      by_cases hk' : k'' = k' <;> simp [mapRemove, mapLookup, hk, hk', ih h, h]

theorem mem_mapInsert {m : PredMap} {k : TripId} {v : Prediction}
    {e : TripId × Prediction} (he : e ∈ mapInsert m k v) :
    e ∈ m ∨ e = (k, v) := by
  induction m with
  | nil => simpa [mapInsert] using he
  | cons e' rest ih =>
    obtain ⟨k', v'⟩ := e'
    by_cases h : k' = k
    · simp only [mapInsert, if_pos h, List.mem_cons] at he
      rcases he with he | he
      · exact Or.inr he
      · exact Or.inl (List.mem_cons_of_mem _ he)
    · simp only [mapInsert, if_neg h, List.mem_cons] at he
      rcases he with he | he
      · exact Or.inl (he ▸ List.mem_cons_self _ _)
      · rcases ih he with h' | h'
        · exact Or.inl (List.mem_cons_of_mem _ h')
        · exact Or.inr h'

theorem mapLookup_mapInsert_self (m : PredMap) (k : TripId) (v : Prediction) :
    mapLookup (mapInsert m k v) k = some v := by
  induction m with
  | nil => simp [mapInsert, mapLookup]
  | cons e rest ih =>
    obtain ⟨k', v'⟩ := e
    by_cases h : k' = k <;> simp [mapInsert, mapLookup, h, ih]

theorem mapLookup_mapInsert_ne {m : PredMap} {k' k : TripId} (h : k' ≠ k)
    (v : Prediction) : mapLookup (mapInsert m k' v) k = mapLookup m k := by
  induction m with
  | nil => simp [mapInsert, mapLookup, h]
  | cons e rest ih =>
    obtain ⟨k'', v''⟩ := e
    by_cases hk : k'' = k'
    · subst hk
      simp [mapInsert, mapLookup, h]
    · by_cases hk2 : k'' = k <;> simp [mapInsert, mapLookup, hk, hk2, Ne.symm h, ih]

theorem mapLookup_mem {m : PredMap} {k : TripId} {v : Prediction}
    (h : mapLookup m k = some v) : (k, v) ∈ m := by
  induction m with
  | nil => simp [mapLookup] at h
  | cons e rest ih =>
    obtain ⟨k', v'⟩ := e
    by_cases hk : k' = k
    · subst hk
      simp [mapLookup] at h
      subst h
      exact List.mem_cons_self _ _
    · simp only [mapLookup, if_neg hk] at h
      exact List.mem_cons_of_mem _ (ih h)

theorem isSome_mapLookup_of_mem {m : PredMap} {k : TripId} {v : Prediction}
    (h : (k, v) ∈ m) : (mapLookup m k).isSome := by
  induction m with
  | nil => simp at h
  | cons e rest ih =>
    obtain ⟨k', v'⟩ := e
    by_cases hk : k' = k
    · simp [mapLookup, hk]
    · rcases List.mem_cons.1 h with h' | h'
      · exact absurd (congrArg Prod.fst h').symm hk
      · simp [mapLookup, hk, ih h']

theorem mapInsert_eq_append {m : PredMap} {k : TripId}
    (h : mapLookup m k = none) (v : Prediction) :
    mapInsert m k v = m ++ [(k, v)] := by
  induction m with
  | nil => rfl
  | cons e rest ih =>
    obtain ⟨k', v'⟩ := e
    by_cases hk : k' = k
    · simp [mapLookup, hk] at h
    · simp only [mapLookup, if_neg hk] at h
      simp [mapInsert, hk, ih h]

theorem mapLookup_append_of_none {m₁ : PredMap} {k : TripId}
    (h : mapLookup m₁ k = none) (m₂ : PredMap) :
    mapLookup (m₁ ++ m₂) k = mapLookup m₂ k := by
  induction m₁ with
  | nil => rfl
  | cons e rest ih =>
    obtain ⟨k', v⟩ := e
    by_cases hk : k' = k
    · simp [mapLookup, hk] at h
    · simp only [mapLookup, if_neg hk] at h
      simp [mapLookup, hk, ih h]

/-! ### Lemmas about `stepFold` and `intersectStep` -/

theorem stepFold_fst (ordered : Bool) (old new : PredMap) (p : Prediction) :
    (stepFold ordered (old, new) p).1 = (mapRemove old p.trip_id).2 := by
  rcases h : (mapRemove old p.trip_id).1 with _ | pred <;> simp only [stepFold, h]
  split <;> rfl

theorem stepFold_snd (ordered : Bool) (old new : PredMap) (p : Prediction) :
    (stepFold ordered (old, new) p).2 = new ∨
      ∃ pred, mapLookup old p.trip_id = some pred ∧
        (stepFold ordered (old, new) p).2 = mapInsert new p.trip_id pred := by
  rcases h : (mapRemove old p.trip_id).1 with _ | pred
  · left
    simp [stepFold, h]
  · have hl : mapLookup old p.trip_id = some pred := by rw [← mapRemove_fst, h]
    by_cases hc :
        (!ordered || (ordered && decide (pred.estimated_time ≤ p.estimated_time))) = true
    · right
      exact ⟨pred, hl, by simp [stepFold, h, hc]⟩
    · left
      simp [stepFold, h, hc]

/-- The Bool guard at src/main.rs line 167 holds exactly when `ordered` is
false or the carried prediction is no later than the current one. -/
theorem keep_cond_iff (ordered : Bool) (x y : Int) :
    (!ordered || (ordered && decide (x ≤ y))) = true ↔ (ordered = false ∨ x ≤ y) := by
  cases ordered <;> simp

theorem stepFold_snd_of_lookup (ordered : Bool) (old new : PredMap) (p : Prediction)
    {pred : Prediction} (hl : mapLookup old p.trip_id = some pred) :
    (stepFold ordered (old, new) p).2 =
      if ordered = false ∨ pred.estimated_time ≤ p.estimated_time
      then mapInsert new p.trip_id pred else new := by
  have hrem : (mapRemove old p.trip_id).1 = some pred := by rw [mapRemove_fst]; exact hl
  by_cases hc : ordered = false ∨ pred.estimated_time ≤ p.estimated_time
  · rw [if_pos hc]
    simp [stepFold, hrem, (keep_cond_iff ordered _ _).2 hc]
  · rw [if_neg hc]
    have hb : ¬ ((!ordered ||
        (ordered && decide (pred.estimated_time ≤ p.estimated_time))) = true) :=
      fun h => hc ((keep_cond_iff ordered _ _).1 h)
    simp [stepFold, hrem, hb]

theorem stepFold_lookup_ne (ordered : Bool) (old new : PredMap) (a : Prediction)
    {k : TripId} (h : a.trip_id ≠ k) :
    mapLookup (stepFold ordered (old, new) a).1 k = mapLookup old k ∧
    mapLookup (stepFold ordered (old, new) a).2 k = mapLookup new k := by
  constructor
  · rw [stepFold_fst]
    exact mapLookup_mapRemove_ne h
  · rcases stepFold_snd ordered old new a with h2 | ⟨pred, _, h2⟩
    · rw [h2]
    · rw [h2, mapLookup_mapInsert_ne h]

theorem foldl_stepFold_lookup_ne (ordered : Bool) {k : TripId} :
    ∀ (as : List Prediction), (∀ a ∈ as, a.trip_id ≠ k) → ∀ old new : PredMap,
      mapLookup (as.foldl (stepFold ordered) (old, new)).1 k = mapLookup old k ∧
      mapLookup (as.foldl (stepFold ordered) (old, new)).2 k = mapLookup new k
  | [], _, old, new => ⟨rfl, rfl⟩
  | a :: as, hk, old, new => by
    have hstep := stepFold_lookup_ne ordered old new a (hk a (List.mem_cons_self _ _))
    have ih := foldl_stepFold_lookup_ne ordered as
      (fun a' h' => hk a' (List.mem_cons_of_mem _ h'))
      (stepFold ordered (old, new) a).1 (stepFold ordered (old, new) a).2
    rw [List.foldl_cons]
    exact ⟨ih.1.trans hstep.1, ih.2.trans hstep.2⟩

theorem stepFold_lookup_none (ordered : Bool) (old new : PredMap) (a : Prediction)
    {k : TripId} (hold : mapLookup old k = none) (hnew : mapLookup new k = none) :
    mapLookup (stepFold ordered (old, new) a).1 k = none ∧
    mapLookup (stepFold ordered (old, new) a).2 k = none := by
  constructor
  · rw [stepFold_fst]
    exact mapLookup_mapRemove_of_none hold _
  · rcases stepFold_snd ordered old new a with h2 | ⟨pred, hpred, h2⟩
    · rw [h2, hnew]
    · rw [h2]
      by_cases hk : a.trip_id = k
      · subst hk
        simp [hold] at hpred
      · rw [mapLookup_mapInsert_ne hk, hnew]

theorem foldl_stepFold_lookup_none (ordered : Bool) {k : TripId} :
    ∀ (as : List Prediction) (old new : PredMap), mapLookup old k = none →
      mapLookup new k = none →
      mapLookup (as.foldl (stepFold ordered) (old, new)).1 k = none ∧
      mapLookup (as.foldl (stepFold ordered) (old, new)).2 k = none
  | [], _, _, hold, hnew => ⟨hold, hnew⟩
  | a :: as, old, new, hold, hnew => by
    have hstep := stepFold_lookup_none ordered old new a hold hnew
    rw [List.foldl_cons]
    exact foldl_stepFold_lookup_none ordered as
      (stepFold ordered (old, new) a).1 (stepFold ordered (old, new) a).2 hstep.1 hstep.2

theorem mem_snd_foldl_stepFold (ordered : Bool) :
    ∀ (ps : List Prediction) (old new : PredMap) (e : TripId × Prediction),
      e ∈ (ps.foldl (stepFold ordered) (old, new)).2 →
      e ∈ new ∨ (e ∈ old ∧ ∃ p ∈ ps, p.trip_id = e.1)
  | [], _, _, _, he => Or.inl he
  | p :: ps, old, new, e, he => by
    rw [List.foldl_cons] at he
    have hrec := mem_snd_foldl_stepFold ordered ps (stepFold ordered (old, new) p).1
      (stepFold ordered (old, new) p).2 e he
    rcases hrec with hnew | ⟨hold, q, hq, hqid⟩
    · rcases stepFold_snd ordered old new p with h2 | ⟨pred, hpred, h2⟩
      · rw [h2] at hnew
        exact Or.inl hnew
      · rw [h2] at hnew
        rcases mem_mapInsert hnew with h' | h'
        · exact Or.inl h'
        · subst h'
          exact Or.inr ⟨mapLookup_mem hpred, p, List.mem_cons_self _ _, rfl⟩
    · have hm : e ∈ old := by
        rw [stepFold_fst] at hold
        exact mem_mapRemove_snd hold
      exact Or.inr ⟨hm, q, List.mem_cons_of_mem _ hq, hqid⟩

theorem mem_intersectStep {m : PredMap} {ordered : Bool} {ps : List Prediction}
    {e : TripId × Prediction} (he : e ∈ intersectStep m ordered ps) :
    e ∈ m ∧ ∃ p ∈ ps, p.trip_id = e.1 := by
  rcases mem_snd_foldl_stepFold ordered ps m [] e he with h | h
  · simp at h
  · exact h

theorem mapLookup_intersectStep_of_not_mem {m : PredMap} {ordered : Bool}
    {ps : List Prediction} {k : TripId}
    (hk : k ∉ ps.map Prediction.trip_id) :
    mapLookup (intersectStep m ordered ps) k = none := by
  have hne : ∀ a ∈ ps, a.trip_id ≠ k := by
    intro a ha h
    exact hk (h ▸ List.mem_map_of_mem Prediction.trip_id ha)
  exact (foldl_stepFold_lookup_ne ordered ps hne m []).2

theorem mapLookup_intersectStep_of_none {m : PredMap} {ordered : Bool}
    {ps : List Prediction} {k : TripId} (h : mapLookup m k = none) :
    mapLookup (intersectStep m ordered ps) k = none :=
  (foldl_stepFold_lookup_none ordered ps m [] h rfl).2

/-- The central per-set law: when the trip ids of the processed set `ps` are
unique, a trip found in the working map survives the step exactly under the
order condition, and the surviving value is the carried-over `pred`. -/
theorem mapLookup_intersectStep_of_mem {m : PredMap} {ordered : Bool}
    {ps : List Prediction} (hnodup : (ps.map Prediction.trip_id).Nodup)
    {p : Prediction} (hp : p ∈ ps) {pred : Prediction}
    (hfound : mapLookup m p.trip_id = some pred) :
    mapLookup (intersectStep m ordered ps) p.trip_id =
      if ordered = false ∨ pred.estimated_time ≤ p.estimated_time
      then some pred else none := by
  obtain ⟨as, bs, rfl⟩ := List.append_of_mem hp
  rw [List.map_append, List.nodup_append] at hnodup
  obtain ⟨-, hndpbs, hdisj⟩ := hnodup
  have has : ∀ a ∈ as, a.trip_id ≠ p.trip_id := by
    intro a ha heq
    exact hdisj (List.mem_map_of_mem _ ha) (by rw [heq]; simp)
  have hbs : ∀ b ∈ bs, b.trip_id ≠ p.trip_id := by
    rw [List.map_cons, List.nodup_cons] at hndpbs
    intro b hb heq
    exact hndpbs.1 (heq ▸ List.mem_map_of_mem _ hb)
  unfold intersectStep
  rw [List.foldl_append, List.foldl_cons]
  have hX := foldl_stepFold_lookup_ne ordered as has m []
  have hX1 : mapLookup (List.foldl (stepFold ordered) (m, []) as).1 p.trip_id = some pred :=
    hX.1.trans hfound
  have hstep := stepFold_snd_of_lookup ordered
    (List.foldl (stepFold ordered) (m, []) as).1
    (List.foldl (stepFold ordered) (m, []) as).2 p hX1
  have hY := foldl_stepFold_lookup_ne ordered bs hbs
    (stepFold ordered (List.foldl (stepFold ordered) (m, []) as) p).1
    (stepFold ordered (List.foldl (stepFold ordered) (m, []) as) p).2
  refine hY.2.trans ?_
  rw [hstep]
  by_cases hc : ordered = false ∨ pred.estimated_time ≤ p.estimated_time
  · rw [if_pos hc, if_pos hc, mapLookup_mapInsert_self]
  · rw [if_neg hc, if_neg hc]
    exact hX.2

/-! ### Lemmas about `seedMap` and the outer fold of `intersect` -/

theorem mem_seedMap_aux :
    ∀ (ps : List Prediction) (acc : PredMap) (e : TripId × Prediction),
      e ∈ ps.foldl (fun m p => mapInsert m p.trip_id p) acc →
      e ∈ acc ∨ ∃ p ∈ ps, e = (p.trip_id, p)
  | [], _, _, he => Or.inl he
  | p :: ps, acc, e, he => by
    rw [List.foldl_cons] at he
    rcases mem_seedMap_aux ps (mapInsert acc p.trip_id p) e he with h | ⟨q, hq, rfl⟩
    · rcases mem_mapInsert h with h' | h'
      · exact Or.inl h'
      · exact Or.inr ⟨p, List.mem_cons_self _ _, h'⟩
    · exact Or.inr ⟨q, List.mem_cons_of_mem _ hq, rfl⟩

theorem mem_seedMap {ps : List Prediction} {e : TripId × Prediction}
    (he : e ∈ seedMap ps) : ∃ p ∈ ps, e = (p.trip_id, p) := by
  rcases mem_seedMap_aux ps [] e he with h | h
  · simp at h
  · exact h

theorem isSome_mapLookup_seedMap_aux :
    ∀ (ps : List Prediction) (acc : PredMap) (k : TripId),
      (mapLookup (ps.foldl (fun m p => mapInsert m p.trip_id p) acc) k).isSome ↔
      ((mapLookup acc k).isSome ∨ k ∈ ps.map Prediction.trip_id)
  | [], _, _ => by simp
  | p :: ps, acc, k => by
    rw [List.foldl_cons, isSome_mapLookup_seedMap_aux ps (mapInsert acc p.trip_id p) k]
    by_cases hk : p.trip_id = k
    · subst hk
      simp [mapLookup_mapInsert_self]
    · rw [mapLookup_mapInsert_ne hk]
      simp [Ne.symm hk, or_assoc]

theorem isSome_mapLookup_seedMap (ps : List Prediction) (k : TripId) :
    (mapLookup (seedMap ps) k).isSome ↔ k ∈ ps.map Prediction.trip_id := by
  unfold seedMap
  rw [isSome_mapLookup_seedMap_aux]
  simp [mapLookup]

theorem mem_foldl_intersectStep (ordered : Bool) :
    ∀ (ss : List Predictions) (m0 : PredMap) (e : TripId × Prediction),
      e ∈ ss.foldl (fun m s => intersectStep m ordered s.predictions) m0 →
      e ∈ m0 ∧ ∀ s ∈ ss, ∃ p ∈ s.predictions, p.trip_id = e.1
  | [], _, _, he => ⟨he, by simp⟩
  | s :: ss, m0, e, he => by
    rw [List.foldl_cons] at he
    obtain ⟨h1, h2⟩ := mem_foldl_intersectStep ordered ss _ e he
    obtain ⟨hm, hp⟩ := mem_intersectStep h1
    refine ⟨hm, ?_⟩
    intro s' hs'
    rcases List.mem_cons.1 hs' with rfl | hs'
    · exact hp
    · exact h2 s' hs'

theorem isSome_mapLookup_intersectStep_false {m : PredMap} {ps : List Prediction}
    (hnd : (ps.map Prediction.trip_id).Nodup) (k : TripId) :
    (mapLookup (intersectStep m false ps) k).isSome ↔
      ((mapLookup m k).isSome ∧ k ∈ ps.map Prediction.trip_id) := by
  constructor
  · intro h
    by_cases hmem : k ∈ ps.map Prediction.trip_id
    · refine ⟨?_, hmem⟩
      by_cases h0 : (mapLookup m k).isSome
      · exact h0
      · rw [Option.not_isSome_iff_eq_none] at h0
        rw [mapLookup_intersectStep_of_none h0] at h
        simp at h
    · rw [mapLookup_intersectStep_of_not_mem hmem] at h
      simp at h
  · rintro ⟨h0, hmem⟩
    obtain ⟨p, hp, hpk⟩ := List.mem_map.1 hmem
    subst hpk
    rw [Option.isSome_iff_exists] at h0
    obtain ⟨pred, hpred⟩ := h0
    rw [mapLookup_intersectStep_of_mem hnd hp hpred]
    simp

theorem isSome_foldl_intersectStep_false :
    ∀ (ss : List Predictions) (m0 : PredMap) (k : TripId),
      (∀ s ∈ ss, (s.predictions.map Prediction.trip_id).Nodup) →
      ((mapLookup (ss.foldl (fun m s => intersectStep m false s.predictions) m0) k).isSome ↔
        ((mapLookup m0 k).isSome ∧ ∀ s ∈ ss, k ∈ s.predictions.map Prediction.trip_id))
  | [], _, _, _ => by simp
  | s :: ss, m0, k, hnd => by
    rw [List.foldl_cons,
      isSome_foldl_intersectStep_false ss _ k (fun s' h => hnd s' (List.mem_cons_of_mem _ h)),
      isSome_mapLookup_intersectStep_false (hnd s (List.mem_cons_self _ _)) k]
    constructor
    · rintro ⟨⟨h0, hs⟩, hrest⟩
      refine ⟨h0, ?_⟩
      intro s' hs'
      rcases List.mem_cons.1 hs' with rfl | h'
      · exact hs
      · exact hrest s' h'
    · rintro ⟨h0, hall⟩
      exact ⟨⟨h0, hall s (List.mem_cons_self _ _)⟩,
        fun s' h' => hall s' (List.mem_cons_of_mem _ h')⟩

/-! ### The self-intersection fixpoint (idempotence machinery) -/

theorem foldl_mapInsert_eq_append :
    ∀ (ps : List Prediction) (acc : PredMap),
      (ps.map Prediction.trip_id).Nodup →
      (∀ p ∈ ps, mapLookup acc p.trip_id = none) →
      ps.foldl (fun m p => mapInsert m p.trip_id p) acc =
        acc ++ ps.map (fun p => (p.trip_id, p))
  | [], acc, _, _ => by simp
  | p :: ps, acc, hnd, hacc => by
    rw [List.map_cons, List.nodup_cons] at hnd
    rw [List.foldl_cons]
    have h1 : mapLookup acc p.trip_id = none := hacc p (List.mem_cons_self _ _)
    have hacc' : ∀ q ∈ ps, mapLookup (mapInsert acc p.trip_id p) q.trip_id = none := by
      intro q hq
      have hne : p.trip_id ≠ q.trip_id := fun h => hnd.1 (h ▸ List.mem_map_of_mem _ hq)
      rw [mapLookup_mapInsert_ne hne]
      exact hacc q (List.mem_cons_of_mem _ hq)
    rw [foldl_mapInsert_eq_append ps _ hnd.2 hacc', mapInsert_eq_append h1]
    simp

theorem seedMap_eq_of_nodup {ps : List Prediction}
    (hnd : (ps.map Prediction.trip_id).Nodup) :
    seedMap ps = ps.map (fun p => (p.trip_id, p)) := by
  unfold seedMap
  rw [foldl_mapInsert_eq_append ps [] hnd (fun _ _ => rfl)]
  simp

theorem foldl_stepFold_pairs :
    ∀ (ps : List Prediction) (ordered : Bool) (acc : PredMap),
      (ps.map Prediction.trip_id).Nodup →
      (∀ p ∈ ps, mapLookup acc p.trip_id = none) →
      ps.foldl (stepFold ordered) (ps.map (fun p => (p.trip_id, p)), acc) =
        ([], acc ++ ps.map (fun p => (p.trip_id, p)))
  | [], _, acc, _, _ => by simp
  | p :: ps, ordered, acc, hnd, hacc => by
    rw [List.map_cons, List.nodup_cons] at hnd
    rw [List.map_cons, List.foldl_cons]
    have hrem : mapRemove ((p.trip_id, p) :: ps.map (fun p => (p.trip_id, p))) p.trip_id =
        (some p, ps.map (fun p => (p.trip_id, p))) := by
      simp [mapRemove]
    have hcond :
        (!ordered || (ordered && decide (p.estimated_time ≤ p.estimated_time))) = true := by
      cases ordered <;> simp
    have hstep :
        stepFold ordered ((p.trip_id, p) :: ps.map (fun p => (p.trip_id, p)), acc) p =
          (ps.map (fun p => (p.trip_id, p)), acc ++ [(p.trip_id, p)]) := by
      simp [stepFold, hrem, hcond, mapInsert_eq_append (hacc p (List.mem_cons_self _ _))]
    rw [hstep]
    have hacc' : ∀ q ∈ ps, mapLookup (acc ++ [(p.trip_id, p)]) q.trip_id = none := by
      intro q hq
      rw [mapLookup_append_of_none (hacc q (List.mem_cons_of_mem _ hq))]
      have hne : p.trip_id ≠ q.trip_id := fun h => hnd.1 (h ▸ List.mem_map_of_mem _ hq)
      simp [mapLookup, hne]
    rw [foldl_stepFold_pairs ps ordered (acc ++ [(p.trip_id, p)]) hnd.2 hacc']
    simp

theorem intersectStep_self {ps : List Prediction} (ordered : Bool)
    (hnd : (ps.map Prediction.trip_id).Nodup) :
    intersectStep (seedMap ps) ordered ps = seedMap ps := by
  rw [seedMap_eq_of_nodup hnd]
  unfold intersectStep
  rw [foldl_stepFold_pairs ps ordered [] hnd (fun _ _ => rfl)]
  simp

theorem foldl_intersectStep_replicate (ordered : Bool) {S : Predictions}
    (hnd : (S.predictions.map Prediction.trip_id).Nodup) :
    ∀ j : Nat,
      (List.replicate j S).foldl (fun m s => intersectStep m ordered s.predictions)
        (seedMap S.predictions) = seedMap S.predictions
  | 0 => rfl
  | j + 1 => by
    rw [List.replicate_succ, List.foldl_cons, intersectStep_self ordered hnd]
    exact foldl_intersectStep_replicate ordered hnd j

/-! ### Remaining helper lemmas -/

theorem parse_lines_eq_none :
    ∀ (rest : List (Option Json)) (l : Option Json), l ∈ rest → parse_line l = none →
      parse_lines rest = none
  | [], _, hl, _ => absurd hl (List.not_mem_nil _)
  | x :: rest, l, hl, hnone => by
    rcases List.mem_cons.1 hl with rfl | hl'
    · simp [parse_lines, hnone]
    · rcases hx : parse_line x with _ | v
      · simp [parse_lines, hx]
      · simp [parse_lines, hx, parse_lines_eq_none rest l hl' hnone]

/-- With `ordered = false`, a trip id is in the output of `intersect` exactly
when it occurs in every input set. -/
theorem intersect_false_tripId_char (sets : List Predictions)
    (hnodup : ∀ s ∈ sets, (s.predictions.map Prediction.trip_id).Nodup)
    (out : Predictions) (hout : intersect sets false = some out) (tid : TripId) :
    ((∃ p ∈ out.predictions, p.trip_id = tid) ↔
      ∀ s ∈ sets, tid ∈ s.predictions.map Prediction.trip_id) := by
  match sets with
  | [] => simp [intersect] at hout
  | first :: rest =>
    simp only [intersect] at hout
    obtain rfl := Option.some.inj hout
    have hrestnd : ∀ s ∈ rest, (s.predictions.map Prediction.trip_id).Nodup :=
      fun s h => hnodup s (List.mem_cons_of_mem _ h)
    constructor
    · rintro ⟨p, hp, rfl⟩
      simp only [sortPreds] at hp
      have hp' := (List.perm_insertionSort predLE _).mem_iff.mp hp
      obtain ⟨e, he, rfl⟩ := List.mem_map.1 hp'
      obtain ⟨hseed, hall⟩ := mem_foldl_intersectStep false rest _ e he
      obtain ⟨q, hq, rfl⟩ := mem_seedMap hseed
      intro s hs
      rcases List.mem_cons.1 hs with rfl | hs'
      · exact List.mem_map_of_mem _ hq
      · obtain ⟨r, hr, hrid⟩ := hall s hs'
        have hrid' : r.trip_id = q.trip_id := hrid
        show q.trip_id ∈ List.map Prediction.trip_id s.predictions
        exact hrid' ▸ List.mem_map_of_mem _ hr
    · intro hall
      have h0 : (mapLookup (seedMap first.predictions) tid).isSome :=
        (isSome_mapLookup_seedMap _ _).mpr (hall first (List.mem_cons_self _ _))
      have hfin :=
        (isSome_foldl_intersectStep_false rest (seedMap first.predictions) tid hrestnd).mpr
          ⟨h0, fun s h => hall s (List.mem_cons_of_mem _ h)⟩
      rw [Option.isSome_iff_exists] at hfin
      obtain ⟨v, hv⟩ := hfin
      have hvmem := mapLookup_mem hv
      obtain ⟨hseed, -⟩ := mem_foldl_intersectStep false rest _ (tid, v) hvmem
      obtain ⟨q, hq, he⟩ := mem_seedMap hseed
      have htid : tid = q.trip_id := congrArg Prod.fst he
      have hvq : v = q := congrArg Prod.snd he
      refine ⟨v, ?_, ?_⟩
      · simp only [sortPreds]
        rw [(List.perm_insertionSort predLE _).mem_iff]
        exact List.mem_map_of_mem Prod.snd hvmem
      · rw [hvq, ← htid]

/-! ### The claims -/

/-- C1: during the processing of one subsequent set by `intersect`, a trip
whose `trip_id` is found in the current working mapping as `pred` is kept in
the new mapping iff `ordered` is false, or `ordered` is true and
`pred.estimated_time ≤ p.estimated_time` (non-strict), and the value retained
is the carried-over `pred`, not the current set's `p`. -/
theorem intersectStep_keeps_iff (m : PredMap) (ordered : Bool) (ps : List Prediction)
    (hnodup : (ps.map Prediction.trip_id).Nodup) (p : Prediction) (hp : p ∈ ps)
    (pred : Prediction) (hfound : mapLookup m p.trip_id = some pred) :
    mapLookup (intersectStep m ordered ps) p.trip_id =
      if ordered = false ∨ pred.estimated_time ≤ p.estimated_time
      then some pred else none :=
  mapLookup_intersectStep_of_mem hnodup hp hfound

/-- Witness for C1, on the spec's end-to-end scenario: trip 1 survives the
`ordered` check (10 ≤ 15) and the retained value is feed A's prediction. -/
theorem intersectStep_keeps_iff_witness :
    mapLookup (intersectStep (seedMap [pA1, pA2]) true [pB1, pB3]) pB1.trip_id = some pA1 := by
  have h := intersectStep_keeps_iff (seedMap [pA1, pA2]) true [pB1, pB3] (by decide)
    pB1 (by decide) pA1 (by decide)
  rw [h, if_pos]
  right
  decide

/-- C2: every trip id in the output of `intersect` occurs in the trip-id set
of every one of the input `Predictions` sets. -/
theorem intersect_tripIds_subset (sets : List Predictions) (ordered : Bool)
    (hnodup : ∀ s ∈ sets, (s.predictions.map Prediction.trip_id).Nodup)
    (out : Predictions) (hout : intersect sets ordered = some out) :
    ∀ p ∈ out.predictions, ∀ s ∈ sets,
      p.trip_id ∈ s.predictions.map Prediction.trip_id := by
  match sets with
  | [] => simp [intersect] at hout
  | first :: rest =>
    simp only [intersect] at hout
    obtain rfl := Option.some.inj hout
    intro p hp s hs
    simp only [sortPreds] at hp
    have hp' := (List.perm_insertionSort predLE _).mem_iff.mp hp
    obtain ⟨e, he, rfl⟩ := List.mem_map.1 hp'
    obtain ⟨hseed, hall⟩ := mem_foldl_intersectStep ordered rest _ e he
    obtain ⟨q, hq, rfl⟩ := mem_seedMap hseed
    rcases List.mem_cons.1 hs with rfl | hs'
    · exact List.mem_map_of_mem _ hq
    · obtain ⟨r, hr, hrid⟩ := hall s hs'
      have hrid' : r.trip_id = q.trip_id := hrid
      show q.trip_id ∈ List.map Prediction.trip_id s.predictions
      exact hrid' ▸ List.mem_map_of_mem _ hr

/-- Witness for C2: in the end-to-end scenario the surviving trip id 1 is in
feed B's trip-id set as well. -/
theorem intersect_tripIds_subset_witness :
    pA1.trip_id ∈ feedB.predictions.map Prediction.trip_id :=
  intersect_tripIds_subset [feedA, feedB] true (by decide)
    { time := 100, predictions := [pA1] } (by decide) pA1 (by decide) feedB (by decide)

/-- C3 (code bug): the spec requires floor division (so t = -500 is 500ms
before the epoch), but `datetime_from_millis` uses Rust's truncating `/` and
`%` and an `as u32` cast; at t = -500 the cast yields the out-of-range
nanosecond count 3794967296 and chrono's `from_timestamp` panics (modelled as
`none`).  t = 0 maps to the epoch and exact multiples of 1000 still work. -/
theorem datetime_from_millis_truncation_bug :
    datetime_from_millis 0 = some 0 ∧
    datetime_from_millis (-1000) = some (-1000000000) ∧
    datetime_from_millis (-500) = none := by
  decide

/-- C4 counterexample: on an empty response body the `StatusCode::Ok` branch
of `Request::send` panics (`lines.next().unwrap()` on `None`), modelled as
`none`: it does not return any `Error` value (`none ≠ some (.error e)`), and
the `Error` enum of the code has no feed-format variant at all. -/
theorem send_empty_stream_counterexample :
    Request.send { stop_point_name := some "Eurogress" }
      (.success .ok []) = none := rfl

/-- C4 (amended): on an empty stream, a malformed metadata line, or any
malformed prediction line, the feed-parsing step panics — it produces `none`
(no error value, and no partial `Predictions`). -/
theorem parse_body_panics_on_malformed (lines : List (Option Json))
    (h : lines = [] ∨
         (∃ mline rest, lines = mline :: rest ∧ parse_meta mline = none) ∨
         (∃ mline rest, lines = mline :: rest ∧ ∃ l ∈ rest, parse_line l = none)) :
    parse_body lines = none := by
  rcases h with rfl | ⟨mline, rest, rfl, hmeta⟩ | ⟨mline, rest, rfl, l, hl, hline⟩
  · rfl
  · simp [parse_body, hmeta]
  · cases hmeta : parse_meta mline <;>
      simp [parse_body, hmeta, parse_lines_eq_none rest l hl hline]

/-- Witness for the amended C4: the empty stream panics. -/
theorem parse_body_panics_on_malformed_witness : parse_body [] = none :=
  parse_body_panics_on_malformed [] (Or.inl rfl)

/-- C5: `intersect` returns `none` iff the input sequence is empty, and on
any non-empty input it returns `some` set (possibly with empty
`predictions`), a valid non-error outcome distinct from `none`. -/
theorem intersect_none_iff_empty (sets : List Predictions) (ordered : Bool) :
    (intersect sets ordered = none ↔ sets = []) ∧
    (sets ≠ [] → ∃ out, intersect sets ordered = some out) := by
  match sets with
  | [] => exact ⟨by simp [intersect], fun h => absurd rfl h⟩
  | first :: rest =>
    refine ⟨⟨fun h => ?_, fun h => by cases h⟩, fun _ => ⟨_, rfl⟩⟩
    simp [intersect] at h

/-- Witness for C5: the empty sequence gives `none`; a singleton gives
`some`; two disjoint feeds give `some` with empty predictions. -/
theorem intersect_none_iff_empty_witness :
    intersect ([] : List Predictions) true = none ∧
    (∃ out, intersect [feedA] true = some out) ∧
    intersect [feedA, { time := 105, predictions := [pB3] }] true =
      some { time := 100, predictions := [] } :=
  ⟨(intersect_none_iff_empty [] true).1.mpr rfl,
   (intersect_none_iff_empty [feedA] true).2 (by decide),
   by decide⟩

/-- C6: for a non-empty input sequence, the output of `intersect` carries the
first input set's `time` and its `predictions` are sorted ascending by
`estimated_time`. -/
theorem intersect_time_and_sorted (first : Predictions) (rest : List Predictions)
    (ordered : Bool) (out : Predictions)
    (hout : intersect (first :: rest) ordered = some out) :
    out.time = first.time ∧ out.predictions.Sorted predLE := by
  simp only [intersect] at hout
  obtain rfl := Option.some.inj hout
  exact ⟨rfl, List.sorted_insertionSort predLE _⟩

/-- Witness for C6 on the end-to-end scenario. -/
theorem intersect_time_and_sorted_witness :
    ({ time := 100, predictions := [pA1] } : Predictions).time = feedA.time ∧
    ({ time := 100, predictions := [pA1] } : Predictions).predictions.Sorted predLE :=
  intersect_time_and_sorted feedA [feedB] true
    { time := 100, predictions := [pA1] } (by decide)

/-- C7: a transport failure maps to the wrapped transport error; the
invalid-filter status (`RangeNotSatisfiable`) maps to the unknown-stop error
carrying the supplied stop name, or to the unexpected-status error when no
stop name was supplied; any other non-success status maps to the
unexpected-status error carrying the raw status. -/
theorem send_status_errors (req : Request) (body : List (Option Json))
    (e : HyperError) (c : Nat) :
    Request.send req (.failure e) = some (.error (.HyperError e)) ∧
    (∀ name, req.stop_point_name = some name →
      Request.send req (.success .rangeNotSatisfiable body) =
        some (.error (.BadStopPointName name))) ∧
    (req.stop_point_name = none →
      Request.send req (.success .rangeNotSatisfiable body) =
        some (.error (.UnknownStatus .rangeNotSatisfiable))) ∧
    Request.send req (.success (.otherStatus c) body) =
      some (.error (.UnknownStatus (.otherStatus c))) := by
  refine ⟨rfl, ?_, ?_, rfl⟩
  · intro name hname
    simp [Request.send, hname]
  · intro hname
    simp [Request.send, hname]

/-- Witness for C7: the invalid-filter status with a supplied stop name. -/
theorem send_status_errors_witness :
    Request.send { stop_point_name := some "Ponttor" }
        (.success .rangeNotSatisfiable []) =
      some (.error (.BadStopPointName "Ponttor")) :=
  (send_status_errors { stop_point_name := some "Ponttor" } []
    { message := "refused" } 500).2.1 "Ponttor" rfl

/-- C8: with `ordered = false`, `intersect` is commutative in content:
permuting the input sequence leaves the set of output trip ids unchanged. -/
theorem intersect_unordered_comm (sets sets' : List Predictions)
    (hperm : sets.Perm sets')
    (hnodup : ∀ s ∈ sets, (s.predictions.map Prediction.trip_id).Nodup)
    (out out' : Predictions) (h1 : intersect sets false = some out)
    (h2 : intersect sets' false = some out') (tid : TripId) :
    ((∃ p ∈ out.predictions, p.trip_id = tid) ↔
      (∃ p ∈ out'.predictions, p.trip_id = tid)) := by
  have hnodup' : ∀ s ∈ sets', (s.predictions.map Prediction.trip_id).Nodup :=
    fun s h => hnodup s (hperm.mem_iff.mpr h)
  rw [intersect_false_tripId_char sets hnodup out h1 tid,
      intersect_false_tripId_char sets' hnodup' out' h2 tid]
  constructor
  · intro h s hs
    exact h s (hperm.mem_iff.mpr hs)
  · intro h s hs
    exact h s (hperm.mem_iff.mp hs)

/-- Witness for C8: swapping the two feeds of the scenario keeps trip id 1 in
the output (though the representative prediction changes). -/
theorem intersect_unordered_comm_witness :
    ((∃ p ∈ ({ time := 100, predictions := [pA1] } : Predictions).predictions,
        p.trip_id = 1) ↔
      (∃ p ∈ ({ time := 105, predictions := [pB1] } : Predictions).predictions,
        p.trip_id = 1)) :=
  intersect_unordered_comm [feedA, feedB] [feedB, feedA] (List.Perm.swap _ _ _)
    (by decide) { time := 100, predictions := [pA1] }
    { time := 105, predictions := [pB1] } (by decide) (by decide) 1

/-- C9: intersecting N ≥ 1 copies of one set (with unique trip ids) yields
`some` of a set whose predictions are exactly that set's predictions sorted
ascending by `estimated_time`, for either value of `ordered`. -/
theorem intersect_replicate_self (S : Predictions) (n : Nat) (hn : 1 ≤ n)
    (ordered : Bool) (hnodup : (S.predictions.map Prediction.trip_id).Nodup) :
    intersect (List.replicate n S) ordered =
      some { time := S.time, predictions := sortPreds S.predictions } ∧
    (sortPreds S.predictions).Perm S.predictions ∧
    (sortPreds S.predictions).Sorted predLE := by
  obtain ⟨j, rfl⟩ : ∃ j, n = j + 1 := ⟨n - 1, (Nat.succ_pred_eq_of_pos hn).symm⟩
  refine ⟨?_, List.perm_insertionSort predLE _, List.sorted_insertionSort predLE _⟩
  rw [List.replicate_succ]
  simp only [intersect]
  rw [foldl_intersectStep_replicate ordered hnodup j, seedMap_eq_of_nodup hnodup]
  simp only [List.map_map]
  rw [show (Prod.snd ∘ fun p : Prediction => (p.trip_id, p)) = id from rfl, List.map_id]

/-- Witness for C9 with two copies of feed A. -/
theorem intersect_replicate_self_witness :
    (intersect (List.replicate 2 feedA) true =
      some { time := feedA.time, predictions := sortPreds feedA.predictions } ∧
    (sortPreds feedA.predictions).Perm feedA.predictions ∧
    (sortPreds feedA.predictions).Sorted predLE) :=
  intersect_replicate_self feedA 2 (by decide) true (by decide)

/-- C10: every output prediction of `intersect` is, field for field, an
element of the first input set's predictions; subsequent sets only filter. -/
theorem intersect_output_from_first (first : Predictions) (rest : List Predictions)
    (ordered : Bool) (out : Predictions)
    (hout : intersect (first :: rest) ordered = some out) :
    ∀ p ∈ out.predictions, p ∈ first.predictions := by
  simp only [intersect] at hout
  obtain rfl := Option.some.inj hout
  intro p hp
  simp only [sortPreds] at hp
  have hp' := (List.perm_insertionSort predLE _).mem_iff.mp hp
  obtain ⟨e, he, rfl⟩ := List.mem_map.1 hp'
  obtain ⟨hseed, -⟩ := mem_foldl_intersectStep ordered rest _ e he
  obtain ⟨q, hq, rfl⟩ := mem_seedMap hseed
  exact hq

/-- Witness for C10: the scenario's surviving prediction is feed A's record
for trip 1 (at t = 10), not feed B's. -/
theorem intersect_output_from_first_witness : pA1 ∈ feedA.predictions :=
  intersect_output_from_first feedA [feedB] true
    { time := 100, predictions := [pA1] } (by decide) pA1 (by decide)

end TravelUra
